import Mathlib

/-!
# Verification of the go-bark payload preparation and encryption subsystem

Shallow embedding of the core of the `go-bark` client library: option
validation (`Options.Validate`), PKCS7 padding (`pKCS7Padding`), the AES
mode dispatch (`aesEncrypt`), and payload assembly (`preparePayload`).

Byte strings (Go `string` / `[]byte`) are modelled as `List Nat` with each
element below 256; machine bytes such as Go's `byte(n)` conversion appear
as explicit `% 256`.  The AES block permutation itself lives in Go's
`crypto/aes` standard library, outside this repository, so every mode is
parametric over a block function `E : Bytes → Bytes → Bytes` (key, then
one 16-byte block); the mode layers (CBC chaining, ECB block loop, GCM
counter mode and GHASH) are written out executably.
-/

namespace Bark

/-- Byte strings: Go `string` and `[]byte` values. -/
abbrev Bytes := List Nat

/-- UTF-8 encoding of one character. -/
def charUtf8 (c : Char) : Bytes :=
  let n := c.toNat
  if n < 0x80 then [n]
  else if n < 0x800 then [0xC0 + n / 64, 0x80 + n % 64]
  else if n < 0x10000 then [0xE0 + n / 4096, 0x80 + n / 64 % 64, 0x80 + n % 64]
  else [0xF0 + n / 262144, 0x80 + n / 4096 % 64, 0x80 + n / 64 % 64, 0x80 + n % 64]

/-- UTF-8 bytes of a text string (Go strings are their UTF-8 bytes). -/
def strBytes (s : String) : Bytes :=
  (s.data.map charUtf8).flatten

/-- ASCII uppercase map, modelling `strings.ToUpper` on the ASCII subset
(mode strings are ASCII). -/
def toUpperAscii (s : String) : String :=
  String.mk (s.data.map (fun c =>
    if 'a' ≤ c ∧ c ≤ 'z' then Char.ofNat (c.toNat - 32) else c))

/-- Go built-in `copy(dst, src)`: overwrites the first
`min (len dst) (len src)` elements of `dst` with those of `src` and keeps
the rest of `dst`; returns the resulting slice contents. -/
def goCopy {α : Type} (dst src : List α) : List α :=
  src.take dst.length ++ dst.drop src.length

/-- `EncOpt` from the source: encryption mode, key and IV/nonce.
`Mode` is a Go string type (`EncMode`); `Key` and `Iv` are Go strings used
as byte strings, so they are modelled directly as `Bytes`. -/
structure EncOpt where
  Mode : String := ""
  Key : Bytes := []
  Iv : Bytes := []
deriving DecidableEq

/-- `Options` from the source, fields in declaration order.  Pointer-typed
optional integers (`*int`) become `Option Int`; `Enc` is tagged `json:"-"`
in the source and never serialized. -/
structure Options where
  DeviceKey : String := ""
  DeviceKeys : List String := []
  Title : String := ""
  Body : String := ""
  Markdown : String := ""
  Subtitle : String := ""
  Group : String := ""
  URL : String := ""
  Icon : String := ""
  Sound : String := ""
  Badge : Option Int := none
  Level : String := ""
  Copy : String := ""
  AutoCopy : String := ""
  IsArchive : Option Int := none
  Call : String := ""
  Volume : Option Int := none
  Action : String := ""
  ID : String := ""
  Delete : String := ""
  Enc : Option EncOpt := none
deriving DecidableEq

/-- `Options.Validate` from the source: device key presence, content
presence, then (when `Enc` is set) key length, and per-mode IV/nonce
presence on the case-normalized mode.  Error values are the source's
error strings. -/
def Options.Validate (o : Options) : Except String Unit :=
  if o.DeviceKey = "" ∧ o.DeviceKeys = [] then
    .error "device_key is required"
  else if o.Title = "" ∧ o.Body = "" ∧ o.Markdown = "" then
    .error "notification content is required"
  else
    match o.Enc with
    | none => .ok ()
    | some e =>
      let keyLen := e.Key.length
      if keyLen ≠ 16 ∧ keyLen ≠ 24 ∧ keyLen ≠ 32 then
        .error "encryption key length must be 16 (AES-128), 24 (AES-192), or 32 (AES-256) bytes"
      else
        let mode := toUpperAscii e.Mode
        if mode = "CBC" then
          if e.Iv.length = 0 then .error "CBC mode requires IV" else .ok ()
        else if mode = "GCM" then
          if e.Iv.length = 0 then .error "GCM mode requires Nonce (Iv field)" else .ok ()
        else if mode = "ECB" then .ok ()
        else .error ("unsupported encryption mode: " ++ e.Mode ++ " (supported: CBC, ECB, GCM)")

/-- `pKCS7Padding` from the source: append `padding` bytes of value
`byte(padding)` where `padding = blockSize - len(data) % blockSize`. -/
def pKCS7Padding (ciphertext : Bytes) (blockSize : Nat) : Bytes :=
  let padding := blockSize - ciphertext.length % blockSize
  ciphertext ++ List.replicate padding (padding % 256)

/-! ## Block chunking and base64 -/

/-- 16-byte chunking worker, structurally recursive on a fuel bound (any
fuel at least the list length gives the same result). -/
def chunksGo : Nat → Bytes → List Bytes
  | 0, _ => []
  | fuel + 1, bs => if bs = [] then [] else bs.take 16 :: chunksGo fuel (bs.drop 16)

/-- Split a byte string into consecutive 16-byte chunks (the last chunk may
be short if the input length is not a multiple of 16; all call sites pad
first). -/
def chunksExact (bs : Bytes) : List Bytes := chunksGo bs.length bs

/-- The standard base64 alphabet, as in Go's `encoding/base64.StdEncoding`. -/
def b64chars : List Char :=
  "ABCDEFGHIJKLMNOPQRSTUVWXYZabcdefghijklmnopqrstuvwxyz0123456789+/".data

/-- Digit of the base64 alphabet. -/
def b64Char (n : Nat) : Char := b64chars.getD n 'A'

/-- Value of a base64 digit (64 for characters outside the alphabet). -/
def b64CharVal (c : Char) : Nat := b64chars.findIdx (fun x => x == c)

/-- Modelled from the spec: Go's `encoding/base64.StdEncoding` encoder
(`ToBase64String` output), 3 input bytes per 4 output digits, `=`-padded. -/
def b64encodeList : Bytes → List Char
  | [] => []
  | [b0] =>
    let n := b0 * 65536
    [b64Char (n / 262144), b64Char (n / 4096 % 64), '=', '=']
  | [b0, b1] =>
    let n := b0 * 65536 + b1 * 256
    [b64Char (n / 262144), b64Char (n / 4096 % 64), b64Char (n / 64 % 64), '=']
  | b0 :: b1 :: b2 :: rest =>
    let n := b0 * 65536 + b1 * 256 + b2
    b64Char (n / 262144) :: b64Char (n / 4096 % 64) :: b64Char (n / 64 % 64) ::
      b64Char (n % 64) :: b64encodeList rest

/-- Base64 encoding of a byte string. -/
def b64encode (bs : Bytes) : String := String.mk (b64encodeList bs)

/-- Modelled from the spec: standard base64 decoding (inverse of
`b64encodeList`), used to state the decrypt-side of the round-trip
properties. -/
def b64decodeList : List Char → Bytes
  | c0 :: c1 :: c2 :: c3 :: rest =>
    if c2 = '=' then
      let n := b64CharVal c0 * 262144 + b64CharVal c1 * 4096
      [n / 65536]
    else if c3 = '=' then
      let n := b64CharVal c0 * 262144 + b64CharVal c1 * 4096 + b64CharVal c2 * 64
      [n / 65536, n / 256 % 256]
    else
      let n := b64CharVal c0 * 262144 + b64CharVal c1 * 4096 + b64CharVal c2 * 64
        + b64CharVal c3
      n / 65536 :: n / 256 % 256 :: n % 256 :: b64decodeList rest
  | _ => []

/-- Base64 decoding of a string. -/
def b64decode (s : String) : Bytes := b64decodeList s.data

/-! ## Cipher modes

The AES block permutation is Go's `crypto/aes`, outside this repository;
the modes are parametric over the keyed block function. -/

/-- A keyed block function: one 16-byte block in, one 16-byte block out. -/
abbrev BlockFn := Bytes → Bytes

/-- Bytewise XOR of two equal-length byte strings. -/
def xorBytes (a b : Bytes) : Bytes := List.zipWith (fun x y => x ^^^ y) a b

/-- Modelled from the spec: CBC chaining (`cipher.NewCBCEncrypter` /
`CryptBlocks`): each plaintext block is XORed with the previous ciphertext
block (the IV for the first) before the block cipher is applied. -/
def cbcEncBlocks (E : BlockFn) (iv : Bytes) : List Bytes → List Bytes
  | [] => []
  | b :: rest =>
    let c := E (xorBytes iv b)
    c :: cbcEncBlocks E c rest

/-- Modelled from the spec: standard CBC decryption, the inverse chaining,
parametric over the block-decryption function `D`. -/
def cbcDecBlocks (D : BlockFn) (iv : Bytes) : List Bytes → List Bytes
  | [] => []
  | c :: rest => xorBytes iv (D c) :: cbcDecBlocks D c rest

/-- Modelled from the spec: PKCS7 unpadding — drop as many trailing bytes
as the value of the last byte. -/
def pKCS7Unpad (bs : Bytes) : Bytes := bs.take (bs.length - bs.getLastD 0)

/-! ### GCM (modelled from the spec: `crypto/cipher`'s GCM with a 12-byte
nonce, empty associated data, 16-byte tag appended as `ciphertext || tag`) -/

/-- Big-endian byte string to natural number. -/
def beBytesToNat (bs : Bytes) : Nat := bs.foldl (fun a b => a * 256 + b) 0

/-- `k`-byte big-endian representation of `n % 256^k`. -/
def natToBeBytes : Nat → Nat → Bytes
  | 0, _ => []
  | k + 1, n => natToBeBytes k (n / 256) ++ [n % 256]

/-- GHASH reduction constant `R = 0xE1 << 120`. -/
def gcmR : Nat := 0xE1 * 2 ^ 120

/-- One multiplication by `x` in GF(2^128), right-shift convention. -/
def mulX (v : Nat) : Nat := if v % 2 = 1 then v / 2 ^^^ gcmR else v / 2

/-- GF(2^128) product, NIST SP 800-38D right-shift algorithm: bit `i` of
`x` (from the most significant) selects the `i`-fold `mulX` image of `y`. -/
def gmul (x y : Nat) : Nat :=
  ((List.range 128).foldl
    (fun zv i => (if x.testBit (127 - i) then zv.1 ^^^ zv.2 else zv.1, mulX zv.2))
    (0, y)).1

/-- GHASH over a list of 128-bit blocks: `Y_i = (Y_{i-1} xor X_i) * H`. -/
def ghash (h : Nat) (blocks : List Nat) : Nat :=
  blocks.foldl (fun y b => gmul (y ^^^ b) h) 0

/-- The GHASH block sequence for empty associated data: the ciphertext
zero-padded to full blocks, then the lengths block `0 || len(C) in bits`. -/
def gcmBlocks (ct : Bytes) : List Nat :=
  (chunksExact (ct ++ List.replicate ((16 - ct.length % 16) % 16) 0)).map beBytesToNat
    ++ [ct.length * 8]

/-- 32-bit wrapping increment of the low word of a counter block. -/
def inc32 (n : Nat) : Nat := n / 2 ^ 32 * 2 ^ 32 + (n % 2 ^ 32 + 1) % 2 ^ 32

/-- `k`-fold `inc32`. -/
def inc32N : Nat → Nat → Nat
  | 0, n => n
  | k + 1, n => inc32 (inc32N k n)

/-- The CTR keystream: blocks `E(inc32^(i+1)(J0))` for `i < nb`. -/
def gctrKeystream (Ek : BlockFn) (j0 : Nat) (nb : Nat) : Bytes :=
  ((List.range nb).map (fun i => Ek (natToBeBytes 16 (inc32N (i + 1) j0)))).flatten

/-- Modelled from the spec: GCM `Seal(nil, nonce, data, nil)` — CTR
encryption from `J0 = nonce || 0x00000001`, then the GHASH tag masked with
`E(J0)`, appended after the ciphertext. -/
def gcmSeal (Ek : BlockFn) (nonce : Bytes) (pt : Bytes) : Bytes :=
  let h := beBytesToNat (Ek (List.replicate 16 0))
  let j0 := beBytesToNat nonce * 2 ^ 32 + 1
  let ks := gctrKeystream Ek j0 ((pt.length + 15) / 16)
  let ct := xorBytes pt ks
  let tag := natToBeBytes 16 (ghash h (gcmBlocks ct) ^^^ beBytesToNat (Ek (natToBeBytes 16 j0)))
  ct ++ tag

/-- Modelled from the spec: GCM `Open` — split off the 16-byte tag,
recompute it over the received ciphertext, and only on a match return the
CTR decryption. -/
def gcmOpen (Ek : BlockFn) (nonce : Bytes) (data : Bytes) : Option Bytes :=
  if data.length < 16 then none
  else
    let ct := data.take (data.length - 16)
    let tag := data.drop (data.length - 16)
    let h := beBytesToNat (Ek (List.replicate 16 0))
    let j0 := beBytesToNat nonce * 2 ^ 32 + 1
    let expectedTag :=
      natToBeBytes 16 (ghash h (gcmBlocks ct) ^^^ beBytesToNat (Ek (natToBeBytes 16 j0)))
    if tag = expectedTag then
      some (xorBytes ct (gctrKeystream Ek j0 ((ct.length + 15) / 16)))
    else none

/-- `aesEncrypt` from the source: key-size check (as in `aes.NewCipher`),
case-normalized mode dispatch to CBC / ECB / GCM with the source's exact
length checks and error strings, base64-encoded result.  Parametric over
the keyed block function `E` standing for `crypto/aes`. -/
def aesEncrypt (E : Bytes → BlockFn) (data : Bytes) (opt : EncOpt) : Except String String :=
  let key := opt.Key
  if key.length ≠ 16 ∧ key.length ≠ 24 ∧ key.length ≠ 32 then
    .error ("crypto/aes: invalid key size " ++ toString key.length)
  else
    let blockSize := 16
    let mode := toUpperAscii opt.Mode
    if mode = "CBC" then
      let iv := opt.Iv
      if iv.length ≠ blockSize then
        .error ("CBC IV length must be " ++ toString blockSize)
      else
        let paddedData := pKCS7Padding data blockSize
        .ok (b64encode ((cbcEncBlocks (E key) iv (chunksExact paddedData)).flatten))
    else if mode = "ECB" then
      let paddedData := pKCS7Padding data blockSize
      .ok (b64encode (((chunksExact paddedData).map (E key)).flatten))
    else if mode = "GCM" then
      let nonce := opt.Iv
      if nonce.length ≠ 12 then
        .error "GCM Nonce length must be 12 bytes"
      else
        .ok (b64encode (gcmSeal (E key) nonce data))
    else
      .error "unsupported encryption mode"

/-! ## JSON serialization of `Options`

Modelled from the spec: Go's `encoding/json` marshaling of the `Options`
struct — fields in declaration order, `omitempty` fields dropped when
empty, `Enc` (tagged `json:"-"`) never emitted, strings escaped as by Go's
default (HTML-escaping) encoder. -/

/-- Hexadecimal digit (lowercase), for `\u00XX` escapes. -/
def hexDigit (n : Nat) : Char :=
  if n < 10 then Char.ofNat (48 + n) else Char.ofNat (87 + n)

/-- A `\u00XX` escape for a byte value. -/
def uEscape (n : Nat) : String :=
  "\\u00" ++ String.mk [hexDigit (n / 16 % 16), hexDigit (n % 16)]

/-- Escape one character as Go's JSON encoder does: quote, backslash,
newline/carriage-return/tab by name, other control characters and the
HTML-escaped `<`, `>`, `&` as `\u00XX`. -/
def jsonEscapeChar (c : Char) : String :=
  if c = '"' then "\\\""
  else if c = '\\' then "\\\\"
  else if c = '\n' then "\\n"
  else if c = '\r' then "\\r"
  else if c = '\t' then "\\t"
  else if c.toNat < 32 ∨ c = '<' ∨ c = '>' ∨ c = '&' then uEscape c.toNat
  else String.mk [c]

/-- A JSON string literal. -/
def jsonQuote (s : String) : String :=
  "\"" ++ String.join (s.data.map jsonEscapeChar) ++ "\""

/-- A JSON array of string literals. -/
def jsonArr (xs : List String) : String :=
  "[" ++ String.intercalate "," (xs.map jsonQuote) ++ "]"

/-- An `omitempty` string field: present iff non-empty. -/
def optStrField (k v : String) : List (String × String) :=
  if v = "" then [] else [(k, jsonQuote v)]

/-- An `omitempty` pointer-to-int field: present iff the pointer is set. -/
def optIntField (k : String) : Option Int → List (String × String)
  | none => []
  | some n => [(k, toString n)]

/-- The serialized fields of an `Options` value, in struct order, with the
source's JSON tags and `omitempty` semantics (`Enc` is `json:"-"`). -/
def marshalFields (o : Options) : List (String × String) :=
  optStrField "device_key" o.DeviceKey
    ++ (if o.DeviceKeys = [] then [] else [("device_keys", jsonArr o.DeviceKeys)])
    ++ optStrField "title" o.Title
    ++ optStrField "body" o.Body
    ++ optStrField "markdown" o.Markdown
    ++ optStrField "subtitle" o.Subtitle
    ++ optStrField "group" o.Group
    ++ optStrField "url" o.URL
    ++ optStrField "icon" o.Icon
    ++ optStrField "sound" o.Sound
    ++ optIntField "badge" o.Badge
    ++ optStrField "level" o.Level
    ++ optStrField "copy" o.Copy
    ++ optStrField "autoCopy" o.AutoCopy
    ++ optIntField "isArchive" o.IsArchive
    ++ optStrField "call" o.Call
    ++ optIntField "volume" o.Volume
    ++ optStrField "action" o.Action
    ++ optStrField "id" o.ID
    ++ optStrField "delete" o.Delete

/-- Render a field list as a JSON object. -/
def renderObj (fields : List (String × String)) : String :=
  "\x7b" ++ String.intercalate "," (fields.map (fun f => "\"" ++ f.1 ++ "\":" ++ f.2)) ++ "\x7d"

/-- `json.Marshal` of an `Options` value. -/
def marshalOptions (o : Options) : String := renderObj (marshalFields o)

/-! ## Payload assembly -/

/-- The outer encrypted envelope: the `map[string]interface{}` the source
builds — always a `ciphertext`, at most one of `device_key` /
`device_keys`. -/
structure Envelope where
  ciphertext : String
  deviceKey : Option String := none
  deviceKeys : Option (List String) := none
deriving DecidableEq

/-- Result of payload preparation: plain JSON, or the encrypted envelope. -/
inductive Payload
  | plain (json : String)
  | encrypted (env : Envelope)
deriving DecidableEq

/-- Lines 189–192 of the source: the local copy `encOpts := *o` with the
routing identifiers and the encryption spec cleared field by field. -/
def encOptsOf (o : Options) : Options :=
  let encOpts := o
  let encOpts := { encOpts with DeviceKey := "" }
  let encOpts := { encOpts with DeviceKeys := [] }
  { encOpts with Enc := none }

/-- `preparePayload` from the source (the `Client` receiver is unused by
it): no `Enc` means plain marshaling; otherwise serialize the cleared
copy, encrypt, and attach routing keys — `make([]string, 0, len+1)`
followed by Go's `copy` (which fills only `min` of the two lengths, here
0), the conditional append of the single key, and the 2+/1/0 envelope
choice. -/
def preparePayload (E : Bytes → BlockFn) (o : Options) : Except String Payload :=
  match o.Enc with
  | none => .ok (.plain (marshalOptions o))
  | some enc =>
    let deviceKeyToUse := o.DeviceKey
    let deviceKeysToUse := o.DeviceKeys
    let encOpts := encOptsOf o
    let plainBytes := strBytes (marshalOptions encOpts)
    match aesEncrypt E plainBytes enc with
    | .error e => .error e
    | .ok cipherText =>
      if deviceKeysToUse.length > 0 then
        let finalRoutingKeys := goCopy (List.replicate 0 "") deviceKeysToUse
        let finalRoutingKeys :=
          if deviceKeyToUse ≠ "" ∧ deviceKeyToUse ∉ finalRoutingKeys then
            finalRoutingKeys ++ [deviceKeyToUse]
          else finalRoutingKeys
        if finalRoutingKeys.length > 1 then
          .ok (.encrypted { ciphertext := cipherText, deviceKeys := some finalRoutingKeys })
        else if finalRoutingKeys.length = 1 then
          .ok (.encrypted { ciphertext := cipherText, deviceKey := some (finalRoutingKeys.headD "") })
        else
          .error "missing device key for routing"
      else
        .ok (.encrypted { ciphertext := cipherText, deviceKey := some deviceKeyToUse })

/-- Routing fields of a payload, for stating envelope-shape claims. -/
def routingOf : Payload → Option String × Option (List String)
  | .plain _ => (none, none)
  | .encrypted env => (env.deviceKey, env.deviceKeys)

/-- `Options.Validate` with the final pointee value returned alongside:
the Go function takes `*Options`, and its body contains no assignment
through the pointer, so the final state is the initial one. -/
def ValidateSt (o : Options) : Except String Unit × Options :=
  (o.Validate, o)

/-- `preparePayload` with the final pointee value returned alongside: the
only mutations in the body target the local copy `encOpts`, never `*o`. -/
def preparePayloadSt (E : Bytes → BlockFn) (o : Options) :
    Except String Payload × Options :=
  (preparePayload E o, o)

/-! ## Concrete instances used by counterexamples and witnesses -/

/-- The identity block permutation, a concrete instance of the abstract
AES parameter (its own inverse). -/
def idE : Bytes → BlockFn := fun _ b => b

/-- A concrete non-trivial block permutation (bytewise XOR with `0xAB`),
its own inverse, with a non-zero image of the zero block. -/
def xorE : Bytes → BlockFn := fun _ b => b.map (fun x => x ^^^ 0xAB)

/-- A 16-byte AES-128 key. -/
def key16 : Bytes := strBytes "1234567890abcdef"

/-- Scenario C of the spec: both a single `device_key` and a list, with
encryption enabled. -/
def oC1 : Options :=
  { DeviceKey := "a", DeviceKeys := ["a", "b", "c"], Title := "T", Body := "B",
    Enc := some { Mode := "ECB", Key := key16 } }

/-- Scenario D of the spec: both routing identifiers empty, with
encryption enabled. -/
def oC2 : Options :=
  { DeviceKey := "", DeviceKeys := [], Title := "T",
    Enc := some { Mode := "ECB", Key := key16 } }

/-- The ciphertext `preparePayload idE oC2` produces. -/
def oC2ct : String :=
  b64encode (((chunksExact (pKCS7Padding (strBytes (marshalOptions (encOptsOf oC2))) 16)).map
    (idE key16)).flatten)

/-- An encrypted multi-device request with an empty single `device_key`. -/
def oC9 : Options :=
  { DeviceKey := "", DeviceKeys := ["b", "c"], Title := "T",
    Enc := some { Mode := "ECB", Key := key16 } }

/-- A request with a 15-byte key (invalid length). -/
def oC4key15 : Options :=
  { DeviceKey := "d", Title := "T",
    Enc := some { Mode := "CBC", Key := strBytes "123456789012345", Iv := strBytes "1111111111111111" } }

/-- Flip bit `k` of byte `i` of a byte string (tampering model for the
authentication claims). -/
def flipBit (bs : Bytes) (i k : Nat) : Bytes :=
  bs.set i (bs.getD i 0 ^^^ 2 ^ k)

/-- The JSON object keys a marshaled `Options` value carries. -/
def keysOf (o : Options) : List String := (marshalFields o).map Prod.fst

/-- Two requests agreeing on every field except the routing identifiers
(`DeviceKey`, `DeviceKeys`) and the encryption spec (`Enc`). -/
def contentEq (o1 o2 : Options) : Prop :=
  o1.Title = o2.Title ∧ o1.Body = o2.Body ∧ o1.Markdown = o2.Markdown
    ∧ o1.Subtitle = o2.Subtitle ∧ o1.Group = o2.Group ∧ o1.URL = o2.URL
    ∧ o1.Icon = o2.Icon ∧ o1.Sound = o2.Sound ∧ o1.Badge = o2.Badge
    ∧ o1.Level = o2.Level ∧ o1.Copy = o2.Copy ∧ o1.AutoCopy = o2.AutoCopy
    ∧ o1.IsArchive = o2.IsArchive ∧ o1.Call = o2.Call ∧ o1.Volume = o2.Volume
    ∧ o1.Action = o2.Action ∧ o1.ID = o2.ID ∧ o1.Delete = o2.Delete

/-- A 16-byte CBC IV. -/
def iv16 : Bytes := strBytes "1111111111111111"

/-- A CBC encryption spec with valid key and IV. -/
def cbcSpec : EncOpt := { Mode := "CBC", Key := key16, Iv := iv16 }

/-- An ECB encryption spec with a valid key. -/
def ecbSpec : EncOpt := { Mode := "ECB", Key := key16 }

/-- A 12-byte GCM nonce. -/
def nonce12 : Bytes := strBytes "abcdefghijkl"

/-- A GCM encryption spec with valid key and nonce. -/
def gcmSpec : EncOpt := { Mode := "GCM", Key := key16, Iv := nonce12 }

/-- A request with routing identifiers set and CBC encryption. -/
def oC3a : Options :=
  { DeviceKey := "a", DeviceKeys := ["x", "y"], Title := "T", Body := "B",
    Enc := some cbcSpec }

/-- The same content as `oC3a` with different routing identifiers and no
encryption spec. -/
def oC3b : Options :=
  { DeviceKey := "zz", Title := "T", Body := "B" }

/-- 32 identical bytes: two identical 16-byte plaintext blocks. -/
def blocks2 : Bytes := List.replicate 32 65

/-! # Theorems -/

/-- C7: PKCS7 padding appends exactly `n` bytes of value `n`, with
`n = 16 - len % 16` always in `1..16` (`16` when the input is already
block-aligned), yielding a positive multiple of 16 strictly longer than
the input. -/
theorem c7_pkcs7_padding (data : Bytes) :
    pKCS7Padding data 16
        = data ++ List.replicate (16 - data.length % 16) (16 - data.length % 16)
      ∧ 1 ≤ 16 - data.length % 16
      ∧ 16 - data.length % 16 ≤ 16
      ∧ (data.length % 16 = 0 → 16 - data.length % 16 = 16)
      ∧ (pKCS7Padding data 16).length % 16 = 0
      ∧ data.length < (pKCS7Padding data 16).length
      ∧ 0 < (pKCS7Padding data 16).length := by
  have hm : data.length % 16 < 16 := Nat.mod_lt _ (by omega)
  have hmod : (16 - data.length % 16) % 256 = 16 - data.length % 16 :=
    Nat.mod_eq_of_lt (by omega)
  have hlen : (pKCS7Padding data 16).length = data.length + (16 - data.length % 16) := by
    simp [pKCS7Padding]
  refine ⟨by simp [pKCS7Padding, hmod], by omega, by omega, by omega, ?_, ?_, ?_⟩
  · rw [hlen]; omega
  · rw [hlen]; omega
  · rw [hlen]; omega

/-- C4: `Validate` checks its rules in order with the first failure
winning — missing device identifiers, then missing content, then (with an
encryption spec) key length not in 16/24/32, unrecognized case-normalized
mode, CBC with empty IV, GCM with empty nonce — and a GCM nonce of any
non-zero length (12 bytes not enforced here) passes. -/
theorem c4_validate_order (o : Options) (e : EncOpt) :
    (o.DeviceKey = "" ∧ o.DeviceKeys = [] →
        o.Validate = .error "device_key is required")
    ∧ (¬(o.DeviceKey = "" ∧ o.DeviceKeys = []) →
        o.Title = "" ∧ o.Body = "" ∧ o.Markdown = "" →
        o.Validate = .error "notification content is required")
    ∧ (o.Enc = some e → ¬(o.DeviceKey = "" ∧ o.DeviceKeys = []) →
        ¬(o.Title = "" ∧ o.Body = "" ∧ o.Markdown = "") →
        (e.Key.length ≠ 16 ∧ e.Key.length ≠ 24 ∧ e.Key.length ≠ 32 →
            o.Validate = .error
              "encryption key length must be 16 (AES-128), 24 (AES-192), or 32 (AES-256) bytes")
        ∧ (¬(e.Key.length ≠ 16 ∧ e.Key.length ≠ 24 ∧ e.Key.length ≠ 32) →
            (toUpperAscii e.Mode ≠ "CBC" → toUpperAscii e.Mode ≠ "GCM" →
              toUpperAscii e.Mode ≠ "ECB" →
              o.Validate = .error
                ("unsupported encryption mode: " ++ e.Mode ++ " (supported: CBC, ECB, GCM)"))
            ∧ (toUpperAscii e.Mode = "CBC" → e.Iv = [] →
                o.Validate = .error "CBC mode requires IV")
            ∧ (toUpperAscii e.Mode = "GCM" → e.Iv = [] →
                o.Validate = .error "GCM mode requires Nonce (Iv field)")
            ∧ (toUpperAscii e.Mode = "GCM" → e.Iv ≠ [] →
                o.Validate = .ok ()))) := by
  refine ⟨?_, ?_, ?_⟩
  · intro h
    simp [Options.Validate, h.1, h.2]
  · intro hdev hcontent
    simp only [Options.Validate]
    rw [if_neg hdev, if_pos hcontent]
  · intro henc hdev hcontent
    refine ⟨?_, ?_⟩
    · intro hkey
      simp only [Options.Validate, henc]
      rw [if_neg hdev, if_neg hcontent, if_pos hkey]
    · intro hkeyok
      refine ⟨?_, ?_, ?_, ?_⟩
      · intro hcbc hgcm hecb
        simp only [Options.Validate, henc]
        rw [if_neg hdev, if_neg hcontent, if_neg hkeyok,
          if_neg hcbc, if_neg hgcm, if_neg hecb]
      · intro hcbc hiv
        simp only [Options.Validate, henc]
        rw [if_neg hdev, if_neg hcontent, if_neg hkeyok, if_pos hcbc,
          if_pos (by simp [hiv])]
      · intro hgcm hiv
        have hne : toUpperAscii e.Mode ≠ "CBC" := by rw [hgcm]; decide
        simp only [Options.Validate, henc]
        rw [if_neg hdev, if_neg hcontent, if_neg hkeyok, if_neg hne, if_pos hgcm,
          if_pos (by simp [hiv])]
      · intro hgcm hiv
        have hne : toUpperAscii e.Mode ≠ "CBC" := by rw [hgcm]; decide
        have hlen : ¬(e.Iv.length = 0) := by simpa using hiv
        simp only [Options.Validate, henc]
        rw [if_neg hdev, if_neg hcontent, if_neg hkeyok, if_neg hne, if_pos hgcm,
          if_neg hlen]

/-- C4 witness: a 15-byte key with everything earlier in order satisfied
is rejected with the key-length error. -/
theorem c4_validate_order_witness :
    oC4key15.Validate
      = .error "encryption key length must be 16 (AES-128), 24 (AES-192), or 32 (AES-256) bytes" :=
  ((c4_validate_order oC4key15
      { Mode := "CBC", Key := strBytes "123456789012345", Iv := strBytes "1111111111111111" }).2.2
    (by decide) (by decide) (by decide)).1 (by decide)

/-- C1: evaluating `preparePayload` at the spec's scenario C — both
`device_key:"a"` and `device_keys:["a","b","c"]` with encryption
enabled — the envelope carries `device_key:"a"` and no `device_keys`
(Go's `copy` into the zero-length slice copies nothing, so the list is
lost), contradicting the spec's merged `device_keys:["a","b","c"]`. -/
theorem c1_merge_eval :
    (preparePayload idE oC1).map routingOf = .ok (some "a", none)
      ∧ oC1.DeviceKey = "a" ∧ oC1.DeviceKeys = ["a", "b", "c"] ∧ oC1.Enc.isSome := by
  refine ⟨?_, rfl, rfl, rfl⟩
  rfl

/-- C2 counterexample: with both routing identifiers empty and encryption
enabled, assembly does not fail — it succeeds and emits an envelope whose
`device_key` is the empty string. -/
theorem c2_counterexample :
    oC2.DeviceKey = "" ∧ oC2.DeviceKeys = [] ∧ oC2.Enc.isSome
      ∧ (preparePayload idE oC2).map routingOf = .ok (some "", none) := by
  refine ⟨rfl, rfl, rfl, ?_⟩
  rfl

/-- C2 amended: for every request with encryption enabled whose
`device_key` and `device_keys` are both empty when the outer envelope is
built, assembly succeeds (once encryption itself succeeds) and the
envelope carries `device_key` set to the empty string and no
`device_keys`; the missing-routing-key error is not raised. -/
theorem c2_amended_empty_routing (E : Bytes → BlockFn) (o : Options) (enc : EncOpt)
    (ct : String) (henc : o.Enc = some enc) (hdk : o.DeviceKey = "")
    (hdks : o.DeviceKeys = [])
    (hok : aesEncrypt E (strBytes (marshalOptions (encOptsOf o))) enc = .ok ct) :
    preparePayload E o
      = .ok (.encrypted { ciphertext := ct, deviceKey := some "", deviceKeys := none }) := by
  simp [preparePayload, henc, hok, hdk, hdks]

/-- C2 amended, witness: the concrete scenario-D request assembles to an
envelope with `device_key:""`. -/
theorem c2_amended_empty_routing_witness :
    preparePayload idE oC2
      = .ok (.encrypted { ciphertext := oC2ct, deviceKey := some "", deviceKeys := none }) :=
  c2_amended_empty_routing idE oC2 { Mode := "ECB", Key := key16 } oC2ct rfl rfl rfl rfl

/-- C9: with encryption enabled, an empty single `device_key` and a
non-empty `device_keys` list, payload preparation returns the
missing-device-key-for-routing error instead of an envelope carrying the
list. -/
theorem c9_multi_device_error (E : Bytes → BlockFn) (o : Options) (enc : EncOpt)
    (ct : String) (henc : o.Enc = some enc) (hdk : o.DeviceKey = "")
    (hdks : o.DeviceKeys ≠ [])
    (hok : aesEncrypt E (strBytes (marshalOptions (encOptsOf o))) enc = .ok ct) :
    preparePayload E o = .error "missing device key for routing" := by
  have hlen : 0 < o.DeviceKeys.length := List.length_pos.mpr hdks
  simp [preparePayload, henc, hok, hdk, goCopy, hlen]

/-- C9 witness: the concrete multi-device request with empty single key
fails with the routing error. -/
theorem c9_multi_device_error_witness :
    preparePayload idE oC9 = .error "missing device key for routing" :=
  c9_multi_device_error idE oC9 { Mode := "ECB", Key := key16 }
    (b64encode (((chunksExact (pKCS7Padding (strBytes (marshalOptions (encOptsOf oC9))) 16)).map
      (idE key16)).flatten))
    rfl rfl (by decide) rfl

/-- C10: neither validation nor payload preparation mutates the caller's
request — the final pointee state equals the initial one for both, on
success and error alike — and the serialization copy clears exactly the
two routing identifiers and the encryption spec, preserving every other
field. -/
theorem c10_no_mutation (E : Bytes → BlockFn) (o : Options) :
    (ValidateSt o).2 = o
    ∧ (preparePayloadSt E o).2 = o
    ∧ (encOptsOf o).DeviceKey = "" ∧ (encOptsOf o).DeviceKeys = []
    ∧ (encOptsOf o).Enc = none
    ∧ (encOptsOf o).Title = o.Title ∧ (encOptsOf o).Body = o.Body
    ∧ (encOptsOf o).Markdown = o.Markdown ∧ (encOptsOf o).Subtitle = o.Subtitle
    ∧ (encOptsOf o).Group = o.Group ∧ (encOptsOf o).URL = o.URL
    ∧ (encOptsOf o).Icon = o.Icon ∧ (encOptsOf o).Sound = o.Sound
    ∧ (encOptsOf o).Badge = o.Badge ∧ (encOptsOf o).Level = o.Level
    ∧ (encOptsOf o).Copy = o.Copy ∧ (encOptsOf o).AutoCopy = o.AutoCopy
    ∧ (encOptsOf o).IsArchive = o.IsArchive ∧ (encOptsOf o).Call = o.Call
    ∧ (encOptsOf o).Volume = o.Volume ∧ (encOptsOf o).Action = o.Action
    ∧ (encOptsOf o).ID = o.ID ∧ (encOptsOf o).Delete = o.Delete := by
  exact ⟨rfl, rfl, rfl, rfl, rfl, rfl, rfl, rfl, rfl, rfl, rfl, rfl, rfl, rfl, rfl,
    rfl, rfl, rfl, rfl, rfl, rfl, rfl, rfl⟩

/-! ## Padding, chunking and XOR lemmas -/

theorem pad16_eq (data : Bytes) :
    pKCS7Padding data 16
      = data ++ List.replicate (16 - data.length % 16) (16 - data.length % 16) := by
  have hm : data.length % 16 < 16 := Nat.mod_lt _ (by omega)
  have : (16 - data.length % 16) % 256 = 16 - data.length % 16 := Nat.mod_eq_of_lt (by omega)
  simp [pKCS7Padding, this]

theorem pad16_length (data : Bytes) :
    (pKCS7Padding data 16).length = data.length + (16 - data.length % 16) := by
  simp [pKCS7Padding]

theorem pad16_mod (data : Bytes) : (pKCS7Padding data 16).length % 16 = 0 := by
  have hm : data.length % 16 < 16 := Nat.mod_lt _ (by omega)
  rw [pad16_length]
  omega

theorem pad16_lt (data : Bytes) (hd : ∀ x ∈ data, x < 256) :
    ∀ x ∈ pKCS7Padding data 16, x < 256 := by
  intro x hx
  rw [pad16_eq] at hx
  rcases List.mem_append.mp hx with h | h
  · exact hd x h
  · have hm : data.length % 16 < 16 := Nat.mod_lt _ (by omega)
    have := List.eq_of_mem_replicate h
    omega

theorem unpad_pad16 (data : Bytes) : pKCS7Unpad (pKCS7Padding data 16) = data := by
  have hm : data.length % 16 < 16 := Nat.mod_lt _ (by omega)
  obtain ⟨m, hmeq⟩ : ∃ m, 16 - data.length % 16 = m + 1 := ⟨15 - data.length % 16, by omega⟩
  rw [pKCS7Unpad, pad16_eq, hmeq]
  have hlast : (data ++ List.replicate (m + 1) (m + 1)).getLastD 0 = m + 1 := by
    rw [List.replicate_succ', ← List.append_assoc, List.getLastD_concat]
  have hlen2 : (data ++ List.replicate (m + 1) (m + 1)).length - (m + 1) = data.length := by
    simp
  rw [hlast, hlen2, List.take_left]

theorem chunksGo_fuel : ∀ (f1 f2 : Nat) (bs : Bytes),
    bs.length ≤ f1 → bs.length ≤ f2 → chunksGo f1 bs = chunksGo f2 bs := by
  intro f1
  induction f1 with
  | zero =>
    intro f2 bs h1 _
    have hbs : bs = [] := List.eq_nil_of_length_eq_zero (by omega)
    subst hbs
    cases f2 <;> simp [chunksGo]
  | succ f1 ih =>
    intro f2 bs h1 h2
    cases f2 with
    | zero =>
      have hbs : bs = [] := List.eq_nil_of_length_eq_zero (by omega)
      subst hbs
      simp [chunksGo]
    | succ f2 =>
      by_cases hbs : bs = []
      · subst hbs; simp [chunksGo]
      · have hpos : 0 < bs.length := List.length_pos.mpr hbs
        simp only [chunksGo, if_neg hbs]
        rw [ih f2 (bs.drop 16) (by simp; omega) (by simp; omega)]

theorem chunksExact_nil : chunksExact [] = [] := rfl

theorem chunksExact_cons (bs : Bytes) (h : bs ≠ []) :
    chunksExact bs = bs.take 16 :: chunksExact (bs.drop 16) := by
  have hpos : 0 < bs.length := List.length_pos.mpr h
  obtain ⟨m, hm⟩ : ∃ m, bs.length = m + 1 := ⟨bs.length - 1, by omega⟩
  rw [chunksExact, hm]
  simp only [chunksGo, if_neg h]
  rw [chunksExact, chunksGo_fuel m (bs.drop 16).length (bs.drop 16) (by simp; omega) le_rfl]

theorem chunksExact_induction (P : Bytes → Prop) (h1 : P [])
    (h2 : ∀ bs : Bytes, bs ≠ [] → P (bs.drop 16) → P bs) : ∀ bs, P bs := by
  have H : ∀ (n : Nat) (bs : Bytes), bs.length ≤ n → P bs := by
    intro n
    induction n with
    | zero =>
      intro bs h
      have hbs : bs = [] := List.eq_nil_of_length_eq_zero (by omega)
      subst hbs
      exact h1
    | succ n ih =>
      intro bs h
      by_cases hbs : bs = []
      · subst hbs; exact h1
      · have hpos : 0 < bs.length := List.length_pos.mpr hbs
        exact h2 bs hbs (ih (bs.drop 16) (by simp; omega))
  exact fun bs => H bs.length bs le_rfl

theorem flatten_chunksExact (bs : Bytes) : (chunksExact bs).flatten = bs := by
  induction bs using chunksExact_induction with
  | h1 => simp [chunksExact_nil]
  | h2 bs h ih =>
    rw [chunksExact_cons bs h, List.flatten_cons, ih, List.take_append_drop]

theorem chunksExact_len16 (bs : Bytes) :
    bs.length % 16 = 0 → ∀ c ∈ chunksExact bs, c.length = 16 := by
  induction bs using chunksExact_induction with
  | h1 => simp [chunksExact_nil]
  | h2 bs hb ih =>
    intro h
    rw [chunksExact_cons bs hb]
    have hpos : 0 < bs.length := List.length_pos.mpr hb
    have h16 : 16 ≤ bs.length := by omega
    intro c hc
    rcases List.mem_cons.mp hc with hc | hc
    · subst hc; simp; omega
    · exact ih (by simp; omega) c hc

theorem chunksExact_mem_lt (bs : Bytes) :
    (∀ x ∈ bs, x < 256) → ∀ c ∈ chunksExact bs, ∀ x ∈ c, x < 256 := by
  induction bs using chunksExact_induction with
  | h1 => simp [chunksExact_nil]
  | h2 bs hbs ih =>
    intro hb
    rw [chunksExact_cons bs hbs]
    intro c hc
    rcases List.mem_cons.mp hc with hc | hc
    · subst hc
      exact fun x hx => hb x (List.take_subset 16 bs hx)
    · exact ih (fun x hx => hb x (List.drop_subset 16 bs hx)) c hc

theorem chunksExact_flatten_blocks (blocks : List Bytes)
    (h : ∀ b ∈ blocks, b.length = 16) : chunksExact blocks.flatten = blocks := by
  induction blocks with
  | nil => simp [chunksExact_nil]
  | cons b rest ih =>
    have hb : b.length = 16 := h b (by simp)
    have hne : b ++ rest.flatten ≠ [] := by
      intro hcon
      have := congrArg List.length hcon
      simp [hb] at this
    rw [List.flatten_cons, chunksExact_cons _ hne, ← hb, List.take_left, List.drop_left]
    rw [ih (fun x hx => h x (by simp [hx]))]

theorem xorBytes_length (a b : Bytes) : (xorBytes a b).length = min a.length b.length := by
  simp [xorBytes]

theorem xorBytes_left_cancel :
    ∀ (a b : Bytes), a.length = b.length → xorBytes a (xorBytes a b) = b := by
  intro a
  induction a with
  | nil =>
    intro b hb
    cases b with
    | nil => rfl
    | cons y ys => simp at hb
  | cons x xs ih =>
    intro b hb
    cases b with
    | nil => simp at hb
    | cons y ys =>
      have hlen : xs.length = ys.length := by simpa using hb
      show (x ^^^ (x ^^^ y)) :: xorBytes xs (xorBytes xs ys) = y :: ys
      rw [Nat.xor_cancel_left, ih ys hlen]

theorem xorBytes_right_cancel :
    ∀ (p ks : Bytes), p.length ≤ ks.length → xorBytes (xorBytes p ks) ks = p := by
  intro p
  induction p with
  | nil => intro ks _; rfl
  | cons x xs ih =>
    intro ks hks
    cases ks with
    | nil => simp at hks
    | cons y ys =>
      have hlen : xs.length ≤ ys.length := by simpa using hks
      show (x ^^^ y ^^^ y) :: xorBytes (xorBytes xs ys) ys = x :: xs
      rw [Nat.xor_cancel_right, ih ys hlen]

theorem xorBytes_lt :
    ∀ (a b : Bytes), (∀ x ∈ a, x < 256) → (∀ x ∈ b, x < 256) →
      ∀ z ∈ xorBytes a b, z < 256 := by
  intro a
  induction a with
  | nil => intro b _ _ z hz; simp [xorBytes] at hz
  | cons x xs ih =>
    intro b ha hb z hz
    cases b with
    | nil => simp [xorBytes] at hz
    | cons y ys =>
      simp only [xorBytes, List.zipWith_cons_cons, List.mem_cons] at hz
      rcases hz with hz | hz
      · subst hz
        have hx : x < 2 ^ 8 := by have := ha x (by simp); omega
        have hy : y < 2 ^ 8 := by have := hb y (by simp); omega
        have := Nat.xor_lt_two_pow hx hy
        omega
      · exact ih ys (fun u hu => ha u (by simp [hu])) (fun u hu => hb u (by simp [hu])) z hz

/-! ## Base64 round trip -/

theorem b64CharVal_b64Char : ∀ n : Nat, n < 64 → b64CharVal (b64Char n) = n := by
  decide

theorem b64Char_ne_pad : ∀ n : Nat, n < 64 → b64Char n ≠ '=' := by
  decide

theorem b64_decode_encode :
    ∀ bs : Bytes, (∀ b ∈ bs, b < 256) → b64decodeList (b64encodeList bs) = bs
  | [], _ => rfl
  | [b0], h => by
    have hb0 : b0 < 256 := h b0 (by simp)
    have h1 : b0 * 65536 / 262144 < 64 := by omega
    have h2 : b0 * 65536 / 4096 % 64 < 64 := by omega
    simp only [b64encodeList, b64decodeList]
    rw [if_pos trivial]
    rw [b64CharVal_b64Char _ h1, b64CharVal_b64Char _ h2]
    simp only [List.cons.injEq, and_true]
    omega
  | [b0, b1], h => by
    have hb0 : b0 < 256 := h b0 (by simp)
    have hb1 : b1 < 256 := h b1 (by simp)
    have h1 : (b0 * 65536 + b1 * 256) / 262144 < 64 := by omega
    have h2 : (b0 * 65536 + b1 * 256) / 4096 % 64 < 64 := by omega
    have h3 : (b0 * 65536 + b1 * 256) / 64 % 64 < 64 := by omega
    simp only [b64encodeList, b64decodeList]
    rw [if_neg (b64Char_ne_pad _ h3)]
    rw [if_pos trivial]
    rw [b64CharVal_b64Char _ h1, b64CharVal_b64Char _ h2, b64CharVal_b64Char _ h3]
    simp only [List.cons.injEq, and_true]
    omega
  | b0 :: b1 :: b2 :: b3 :: rest, h => by
    have ih := b64_decode_encode (b3 :: rest) (fun x hx => h x (by simp at hx ⊢; tauto))
    have hb0 : b0 < 256 := h b0 (by simp)
    have hb1 : b1 < 256 := h b1 (by simp)
    have hb2 : b2 < 256 := h b2 (by simp)
    have h1 : (b0 * 65536 + b1 * 256 + b2) / 262144 < 64 := by omega
    have h2 : (b0 * 65536 + b1 * 256 + b2) / 4096 % 64 < 64 := by omega
    have h3 : (b0 * 65536 + b1 * 256 + b2) / 64 % 64 < 64 := by omega
    have h4 : (b0 * 65536 + b1 * 256 + b2) % 64 < 64 := by omega
    simp only [b64encodeList, b64decodeList]
    rw [if_neg (b64Char_ne_pad _ h3), if_neg (b64Char_ne_pad _ h4)]
    rw [b64CharVal_b64Char _ h1, b64CharVal_b64Char _ h2, b64CharVal_b64Char _ h3,
      b64CharVal_b64Char _ h4]
    rw [ih]
    simp only [List.cons.injEq, and_true, and_self_iff]
    omega
  | [b0, b1, b2], h => by
    have ih : b64decodeList (b64encodeList ([] : Bytes)) = [] := rfl
    have hb0 : b0 < 256 := h b0 (by simp)
    have hb1 : b1 < 256 := h b1 (by simp)
    have hb2 : b2 < 256 := h b2 (by simp)
    have h1 : (b0 * 65536 + b1 * 256 + b2) / 262144 < 64 := by omega
    have h2 : (b0 * 65536 + b1 * 256 + b2) / 4096 % 64 < 64 := by omega
    have h3 : (b0 * 65536 + b1 * 256 + b2) / 64 % 64 < 64 := by omega
    have h4 : (b0 * 65536 + b1 * 256 + b2) % 64 < 64 := by omega
    simp only [b64encodeList, b64decodeList]
    rw [if_neg (b64Char_ne_pad _ h3), if_neg (b64Char_ne_pad _ h4)]
    rw [b64CharVal_b64Char _ h1, b64CharVal_b64Char _ h2, b64CharVal_b64Char _ h3,
      b64CharVal_b64Char _ h4]
    simp only [List.cons.injEq, and_true]
    omega

theorem b64decode_b64encode (bs : Bytes) (h : ∀ b ∈ bs, b < 256) :
    b64decode (b64encode bs) = bs := by
  rw [b64decode, b64encode]
  exact b64_decode_encode bs h

/-! ## CBC lemmas -/

theorem cbcEncBlocks_good (E : BlockFn)
    (hE : ∀ b : Bytes, b.length = 16 → (∀ x ∈ b, x < 256) →
      (E b).length = 16 ∧ ∀ x ∈ E b, x < 256) :
    ∀ (ps : List Bytes) (iv : Bytes), iv.length = 16 → (∀ x ∈ iv, x < 256) →
      (∀ p ∈ ps, p.length = 16 ∧ ∀ x ∈ p, x < 256) →
      ∀ c ∈ cbcEncBlocks E iv ps, c.length = 16 ∧ ∀ x ∈ c, x < 256 := by
  intro ps
  induction ps with
  | nil => intro iv _ _ _ c hc; simp [cbcEncBlocks] at hc
  | cons p rest ih =>
    intro iv hiv hivb hps c hc
    have hp := hps p (by simp)
    have hxl : (xorBytes iv p).length = 16 := by
      rw [xorBytes_length, hiv, hp.1]; rfl
    have hxb : ∀ x ∈ xorBytes iv p, x < 256 := xorBytes_lt iv p hivb hp.2
    have hc1 := hE (xorBytes iv p) hxl hxb
    simp only [cbcEncBlocks, List.mem_cons] at hc
    rcases hc with hc | hc
    · subst hc; exact hc1
    · exact ih (E (xorBytes iv p)) hc1.1 hc1.2
        (fun q hq => hps q (by simp [hq])) c hc

theorem cbcDecBlocks_cbcEncBlocks (E D : BlockFn)
    (hE : ∀ b : Bytes, b.length = 16 → (∀ x ∈ b, x < 256) →
      (E b).length = 16 ∧ ∀ x ∈ E b, x < 256)
    (hinv : ∀ b : Bytes, b.length = 16 → (∀ x ∈ b, x < 256) → D (E b) = b) :
    ∀ (ps : List Bytes) (iv : Bytes), iv.length = 16 → (∀ x ∈ iv, x < 256) →
      (∀ p ∈ ps, p.length = 16 ∧ ∀ x ∈ p, x < 256) →
      cbcDecBlocks D iv (cbcEncBlocks E iv ps) = ps := by
  intro ps
  induction ps with
  | nil => intro iv _ _ _; rfl
  | cons p rest ih =>
    intro iv hiv hivb hps
    have hp := hps p (by simp)
    have hxl : (xorBytes iv p).length = 16 := by
      rw [xorBytes_length, hiv, hp.1]; rfl
    have hxb : ∀ x ∈ xorBytes iv p, x < 256 := xorBytes_lt iv p hivb hp.2
    have hc1 := hE (xorBytes iv p) hxl hxb
    simp only [cbcEncBlocks, cbcDecBlocks]
    rw [hinv (xorBytes iv p) hxl hxb,
      xorBytes_left_cancel iv p (by rw [hiv, hp.1]),
      ih (E (xorBytes iv p)) hc1.1 hc1.2 (fun q hq => hps q (by simp [hq]))]

/-! ## `aesEncrypt` dispatch lemmas -/

theorem aesEncrypt_keyError (E : Bytes → BlockFn) (data : Bytes) (opt : EncOpt)
    (hkey : opt.Key.length ≠ 16 ∧ opt.Key.length ≠ 24 ∧ opt.Key.length ≠ 32) :
    aesEncrypt E data opt = .error ("crypto/aes: invalid key size " ++ toString opt.Key.length) := by
  simp [aesEncrypt, hkey]

theorem aesEncrypt_cbc (E : Bytes → BlockFn) (data : Bytes) (opt : EncOpt)
    (hkey : opt.Key.length = 16 ∨ opt.Key.length = 24 ∨ opt.Key.length = 32)
    (hmode : toUpperAscii opt.Mode = "CBC") (hiv : opt.Iv.length = 16) :
    aesEncrypt E data opt
      = .ok (b64encode ((cbcEncBlocks (E opt.Key) opt.Iv
          (chunksExact (pKCS7Padding data 16))).flatten)) := by
  have hk : ¬(opt.Key.length ≠ 16 ∧ opt.Key.length ≠ 24 ∧ opt.Key.length ≠ 32) := by tauto
  simp [aesEncrypt, hk, hmode, hiv]

theorem aesEncrypt_cbc_badIv (E : Bytes → BlockFn) (data : Bytes) (opt : EncOpt)
    (hkey : opt.Key.length = 16 ∨ opt.Key.length = 24 ∨ opt.Key.length = 32)
    (hmode : toUpperAscii opt.Mode = "CBC") (hiv : opt.Iv.length ≠ 16) :
    aesEncrypt E data opt = .error "CBC IV length must be 16" := by
  have hk : ¬(opt.Key.length ≠ 16 ∧ opt.Key.length ≠ 24 ∧ opt.Key.length ≠ 32) := by tauto
  have hmsg : ("CBC IV length must be " ++ toString (16 : Nat)) = "CBC IV length must be 16" := rfl
  simp [aesEncrypt, hk, hmode, hiv, hmsg]

theorem aesEncrypt_ecb (E : Bytes → BlockFn) (data : Bytes) (opt : EncOpt)
    (hkey : opt.Key.length = 16 ∨ opt.Key.length = 24 ∨ opt.Key.length = 32)
    (hmode : toUpperAscii opt.Mode = "ECB") :
    aesEncrypt E data opt
      = .ok (b64encode (((chunksExact (pKCS7Padding data 16)).map (E opt.Key)).flatten)) := by
  have hk : ¬(opt.Key.length ≠ 16 ∧ opt.Key.length ≠ 24 ∧ opt.Key.length ≠ 32) := by tauto
  have hne : toUpperAscii opt.Mode ≠ "CBC" := by rw [hmode]; decide
  simp [aesEncrypt, hk, hmode, hne]

theorem aesEncrypt_gcm (E : Bytes → BlockFn) (data : Bytes) (opt : EncOpt)
    (hkey : opt.Key.length = 16 ∨ opt.Key.length = 24 ∨ opt.Key.length = 32)
    (hmode : toUpperAscii opt.Mode = "GCM") (hnonce : opt.Iv.length = 12) :
    aesEncrypt E data opt = .ok (b64encode (gcmSeal (E opt.Key) opt.Iv data)) := by
  have hk : ¬(opt.Key.length ≠ 16 ∧ opt.Key.length ≠ 24 ∧ opt.Key.length ≠ 32) := by tauto
  have hne1 : toUpperAscii opt.Mode ≠ "CBC" := by rw [hmode]; decide
  have hne2 : toUpperAscii opt.Mode ≠ "ECB" := by rw [hmode]; decide
  simp [aesEncrypt, hk, hmode, hne1, hne2, hnonce]

theorem aesEncrypt_gcm_badNonce (E : Bytes → BlockFn) (data : Bytes) (opt : EncOpt)
    (hkey : opt.Key.length = 16 ∨ opt.Key.length = 24 ∨ opt.Key.length = 32)
    (hmode : toUpperAscii opt.Mode = "GCM") (hnonce : opt.Iv.length ≠ 12) :
    aesEncrypt E data opt = .error "GCM Nonce length must be 12 bytes" := by
  have hk : ¬(opt.Key.length ≠ 16 ∧ opt.Key.length ≠ 24 ∧ opt.Key.length ≠ 32) := by tauto
  have hne1 : toUpperAscii opt.Mode ≠ "CBC" := by rw [hmode]; decide
  have hne2 : toUpperAscii opt.Mode ≠ "ECB" := by rw [hmode]; decide
  simp [aesEncrypt, hk, hmode, hne1, hne2, hnonce]

/-- The CBC encrypt-then-decrypt byte-level round trip. -/
theorem cbc_b64_roundtrip (Ek D : BlockFn) (iv data : Bytes)
    (hE : ∀ b : Bytes, b.length = 16 → (∀ x ∈ b, x < 256) →
      (Ek b).length = 16 ∧ ∀ x ∈ Ek b, x < 256)
    (hinv : ∀ b : Bytes, b.length = 16 → (∀ x ∈ b, x < 256) → D (Ek b) = b)
    (hiv : iv.length = 16) (hivb : ∀ x ∈ iv, x < 256)
    (hdata : ∀ x ∈ data, x < 256) :
    pKCS7Unpad ((cbcDecBlocks D iv (chunksExact (b64decode
      (b64encode ((cbcEncBlocks Ek iv (chunksExact (pKCS7Padding data 16))).flatten))))).flatten)
      = data := by
  have hblocks : ∀ p ∈ chunksExact (pKCS7Padding data 16), p.length = 16 ∧ ∀ x ∈ p, x < 256 :=
    fun p hp => ⟨chunksExact_len16 _ (pad16_mod data) p hp,
      chunksExact_mem_lt _ (pad16_lt data hdata) p hp⟩
  have hgood := cbcEncBlocks_good Ek hE (chunksExact (pKCS7Padding data 16)) iv hiv hivb hblocks
  have hctb : ∀ x ∈ (cbcEncBlocks Ek iv (chunksExact (pKCS7Padding data 16))).flatten, x < 256 := by
    intro x hx
    obtain ⟨c, hc, hxc⟩ := List.mem_flatten.mp hx
    exact (hgood c hc).2 x hxc
  rw [b64decode_b64encode _ hctb,
    chunksExact_flatten_blocks _ (fun c hc => (hgood c hc).1),
    cbcDecBlocks_cbcEncBlocks Ek D hE hinv _ iv hiv hivb hblocks,
    flatten_chunksExact, unpad_pad16]

/-- C5: with a valid key and a 16-byte IV, CBC-mode `aesEncrypt` PKCS7-pads
and then chains the block cipher from the IV; base64-decoding the output
and decrypting with the inverse block cipher under the same IV, then
PKCS7-unpadding, recovers the plaintext exactly; an IV of any other length
is rejected. -/
theorem c5_cbc_roundtrip (E : Bytes → BlockFn) (D : BlockFn) (opt : EncOpt) (data : Bytes)
    (hE : ∀ b : Bytes, b.length = 16 → (∀ x ∈ b, x < 256) →
      ((E opt.Key b).length = 16 ∧ ∀ x ∈ E opt.Key b, x < 256))
    (hinv : ∀ b : Bytes, b.length = 16 → (∀ x ∈ b, x < 256) → D (E opt.Key b) = b)
    (hkey : opt.Key.length = 16 ∨ opt.Key.length = 24 ∨ opt.Key.length = 32)
    (hmode : toUpperAscii opt.Mode = "CBC")
    (hiv : opt.Iv.length = 16) (hivb : ∀ x ∈ opt.Iv, x < 256)
    (hdata : ∀ x ∈ data, x < 256) :
    aesEncrypt E data opt
        = .ok (b64encode ((cbcEncBlocks (E opt.Key) opt.Iv
            (chunksExact (pKCS7Padding data 16))).flatten))
      ∧ pKCS7Unpad ((cbcDecBlocks D opt.Iv (chunksExact (b64decode
          (b64encode ((cbcEncBlocks (E opt.Key) opt.Iv
            (chunksExact (pKCS7Padding data 16))).flatten))))).flatten) = data
      ∧ (∀ iv2 : Bytes, iv2.length ≠ 16 →
          aesEncrypt E data { opt with Iv := iv2 } = .error "CBC IV length must be 16") := by
  refine ⟨aesEncrypt_cbc E data opt hkey hmode hiv,
    cbc_b64_roundtrip (E opt.Key) D opt.Iv data hE hinv hiv hivb hdata,
    fun iv2 hiv2 => aesEncrypt_cbc_badIv E data { opt with Iv := iv2 } hkey hmode hiv2⟩

/-- C5 witness: concrete CBC round trip at the identity block permutation,
a 16-byte key and IV, and the plaintext bytes of "hello". -/
theorem c5_cbc_roundtrip_witness :
    pKCS7Unpad ((cbcDecBlocks (idE []) cbcSpec.Iv (chunksExact (b64decode
      (b64encode ((cbcEncBlocks (idE cbcSpec.Key) cbcSpec.Iv
        (chunksExact (pKCS7Padding (strBytes "hello") 16))).flatten))))).flatten)
      = strBytes "hello" :=
  (c5_cbc_roundtrip idE (idE []) cbcSpec (strBytes "hello")
    (fun _ hl hb => ⟨hl, hb⟩) (fun _ _ _ => rfl)
    (by decide) (by decide) (by decide) (by decide) (by decide)).2.1

/-- C8: ECB-mode `aesEncrypt` PKCS7-pads and encrypts each 16-byte block
independently with no chaining, so equal plaintext blocks (at any two
positions) yield equal ciphertext blocks. -/
theorem c8_ecb_deterministic (E : Bytes → BlockFn) (opt : EncOpt) (data : Bytes)
    (hkey : opt.Key.length = 16 ∨ opt.Key.length = 24 ∨ opt.Key.length = 32)
    (hmode : toUpperAscii opt.Mode = "ECB") :
    aesEncrypt E data opt
        = .ok (b64encode (((chunksExact (pKCS7Padding data 16)).map (E opt.Key)).flatten))
      ∧ ∀ i j : Nat,
          (chunksExact (pKCS7Padding data 16))[i]? = (chunksExact (pKCS7Padding data 16))[j]? →
          ((chunksExact (pKCS7Padding data 16)).map (E opt.Key))[i]?
            = ((chunksExact (pKCS7Padding data 16)).map (E opt.Key))[j]? := by
  refine ⟨aesEncrypt_ecb E data opt hkey hmode, fun i j hij => ?_⟩
  rw [List.getElem?_map, List.getElem?_map, hij]

/-- C8 witness: two identical 16-byte plaintext blocks produce identical
ciphertext blocks under a concrete block permutation. -/
theorem c8_ecb_deterministic_witness :
    ((chunksExact (pKCS7Padding blocks2 16)).map (xorE ecbSpec.Key))[0]?
      = ((chunksExact (pKCS7Padding blocks2 16)).map (xorE ecbSpec.Key))[1]? :=
  (c8_ecb_deterministic xorE ecbSpec blocks2 (by decide) (by decide)).2 0 1 (by decide)

/-! ## GCM lemmas -/

theorem natToBeBytes_length : ∀ (k n : Nat), (natToBeBytes k n).length = k := by
  intro k
  induction k with
  | zero => intro n; rfl
  | succ k ih => intro n; simp [natToBeBytes, ih]

theorem natToBeBytes_lt : ∀ (k n : Nat), ∀ x ∈ natToBeBytes k n, x < 256 := by
  intro k
  induction k with
  | zero => intro n x hx; simp [natToBeBytes] at hx
  | succ k ih =>
    intro n x hx
    simp only [natToBeBytes, List.mem_append, List.mem_singleton] at hx
    rcases hx with hx | hx
    · exact ih (n / 256) x hx
    · subst hx; exact Nat.mod_lt _ (by omega)

theorem beBytesToNat_append_one (xs : Bytes) (b : Nat) :
    beBytesToNat (xs ++ [b]) = beBytesToNat xs * 256 + b := by
  simp [beBytesToNat, List.foldl_append]

theorem beBytesToNat_natToBeBytes :
    ∀ (k n : Nat), beBytesToNat (natToBeBytes k n) = n % 256 ^ k := by
  intro k
  induction k with
  | zero => intro n; simp [natToBeBytes, beBytesToNat]; omega
  | succ k ih =>
    intro n
    rw [natToBeBytes, beBytesToNat_append_one, ih]
    have h1 : (256 : Nat) ^ (k + 1) = 256 * 256 ^ k := by ring
    rw [h1, Nat.mod_mul]
    ring

theorem natToBeBytes_inj {k a b : Nat} (ha : a < 256 ^ k) (hb : b < 256 ^ k)
    (h : natToBeBytes k a = natToBeBytes k b) : a = b := by
  have := congrArg beBytesToNat h
  rw [beBytesToNat_natToBeBytes, beBytesToNat_natToBeBytes,
    Nat.mod_eq_of_lt ha, Nat.mod_eq_of_lt hb] at this
  exact this

theorem beBytesToNat_lt_aux :
    ∀ (bs : Bytes) (a : Nat), (∀ x ∈ bs, x < 256) →
      bs.foldl (fun acc b => acc * 256 + b) a < (a + 1) * 256 ^ bs.length := by
  intro bs
  induction bs with
  | nil => intro a _; simp
  | cons b rest ih =>
    intro a h
    have hb : b < 256 := h b (by simp)
    have step := ih (a * 256 + b) (fun x hx => h x (by simp [hx]))
    simp only [List.foldl_cons, List.length_cons]
    calc List.foldl (fun acc b => acc * 256 + b) (a * 256 + b) rest
        < (a * 256 + b + 1) * 256 ^ rest.length := step
      _ ≤ ((a + 1) * 256) * 256 ^ rest.length := by
          have : a * 256 + b + 1 ≤ (a + 1) * 256 := by omega
          exact Nat.mul_le_mul_right _ this
      _ = (a + 1) * 256 ^ (rest.length + 1) := by ring

theorem beBytesToNat_lt (bs : Bytes) (h : ∀ x ∈ bs, x < 256) :
    beBytesToNat bs < 256 ^ bs.length := by
  have := beBytesToNat_lt_aux bs 0 h
  simpa [beBytesToNat] using this

theorem two_pow_128_eq : (2 : Nat) ^ 128 = 256 ^ 16 := by norm_num

theorem mulX_lt {v : Nat} (hv : v < 2 ^ 128) : mulX v < 2 ^ 128 := by
  have hR : gcmR < 2 ^ 128 := by norm_num [gcmR]
  have hhalf : v / 2 < 2 ^ 128 := by omega
  rw [mulX]
  split
  · exact Nat.xor_lt_two_pow hhalf hR
  · exact hhalf

theorem gmul_lt (x y : Nat) (hy : y < 2 ^ 128) : gmul x y < 2 ^ 128 := by
  rw [gmul]
  have H : ∀ (l : List Nat) (z v : Nat), z < 2 ^ 128 → v < 2 ^ 128 →
      ((l.foldl (fun zv i =>
        (if x.testBit (127 - i) then zv.1 ^^^ zv.2 else zv.1, mulX zv.2)) (z, v)).1 < 2 ^ 128) := by
    intro l
    induction l with
    | nil => intro z v hz _; exact hz
    | cons i rest ih =>
      intro z v hz hv
      simp only [List.foldl_cons]
      refine ih _ _ ?_ (mulX_lt hv)
      split
      · exact Nat.xor_lt_two_pow hz hv
      · exact hz
  exact H _ 0 y (by norm_num) hy

theorem ghash_lt (h : Nat) (blocks : List Nat) (hh : h < 2 ^ 128) :
    ghash h blocks < 2 ^ 128 := by
  rw [ghash]
  have H : ∀ (l : List Nat) (y : Nat), y < 2 ^ 128 →
      l.foldl (fun y b => gmul (y ^^^ b) h) y < 2 ^ 128 := by
    intro l
    induction l with
    | nil => intro y hy; exact hy
    | cons b rest ih =>
      intro y _
      simp only [List.foldl_cons]
      exact ih _ (gmul_lt _ _ hh)
  exact H _ 0 (by norm_num)

theorem flatten_map_length {α : Type} (f : α → Bytes) (l : List α)
    (h : ∀ i ∈ l, (f i).length = 16) : ((l.map f).flatten).length = 16 * l.length := by
  induction l with
  | nil => simp
  | cons a rest ih =>
    simp only [List.map_cons, List.flatten_cons, List.length_append, List.length_cons]
    rw [h a (by simp), ih (fun i hi => h i (by simp [hi]))]
    ring

theorem flatten_map_lt {α : Type} (f : α → Bytes) (l : List α)
    (h : ∀ i ∈ l, ∀ x ∈ f i, x < 256) : ∀ x ∈ (l.map f).flatten, x < 256 := by
  intro x hx
  obtain ⟨c, hc, hxc⟩ := List.mem_flatten.mp hx
  obtain ⟨i, hi, rfl⟩ := List.mem_map.mp hc
  exact h i hi x hxc

theorem gctrKeystream_length (Ek : BlockFn) (j0 nb : Nat)
    (hE : ∀ b : Bytes, b.length = 16 → (∀ x ∈ b, x < 256) →
      (Ek b).length = 16 ∧ ∀ x ∈ Ek b, x < 256) :
    (gctrKeystream Ek j0 nb).length = 16 * nb := by
  rw [gctrKeystream]
  rw [flatten_map_length _ _ (fun i _ =>
    (hE _ (natToBeBytes_length 16 _) (natToBeBytes_lt 16 _)).1)]
  simp

theorem gctrKeystream_lt (Ek : BlockFn) (j0 nb : Nat)
    (hE : ∀ b : Bytes, b.length = 16 → (∀ x ∈ b, x < 256) →
      (Ek b).length = 16 ∧ ∀ x ∈ Ek b, x < 256) :
    ∀ x ∈ gctrKeystream Ek j0 nb, x < 256 := by
  rw [gctrKeystream]
  exact flatten_map_lt _ _ (fun i _ =>
    (hE _ (natToBeBytes_length 16 _) (natToBeBytes_lt 16 _)).2)

theorem gcmSeal_eq (Ek : BlockFn) (nonce pt : Bytes) :
    gcmSeal Ek nonce pt
      = xorBytes pt (gctrKeystream Ek (beBytesToNat nonce * 2 ^ 32 + 1) ((pt.length + 15) / 16))
        ++ natToBeBytes 16
          (ghash (beBytesToNat (Ek (List.replicate 16 0)))
            (gcmBlocks (xorBytes pt
              (gctrKeystream Ek (beBytesToNat nonce * 2 ^ 32 + 1) ((pt.length + 15) / 16))))
            ^^^ beBytesToNat (Ek (natToBeBytes 16 (beBytesToNat nonce * 2 ^ 32 + 1)))) := rfl

theorem gcmOpen_append (Ek : BlockFn) (nonce ct tag : Bytes) (htag : tag.length = 16) :
    gcmOpen Ek nonce (ct ++ tag)
      = if tag = natToBeBytes 16
            (ghash (beBytesToNat (Ek (List.replicate 16 0))) (gcmBlocks ct)
              ^^^ beBytesToNat (Ek (natToBeBytes 16 (beBytesToNat nonce * 2 ^ 32 + 1))))
        then some (xorBytes ct
          (gctrKeystream Ek (beBytesToNat nonce * 2 ^ 32 + 1) ((ct.length + 15) / 16)))
        else none := by
  have hlen : (ct ++ tag).length = ct.length + 16 := by simp [htag]
  have hnot : ¬ (ct ++ tag).length < 16 := by omega
  have hsub : (ct ++ tag).length - 16 = ct.length := by omega
  have htake : (ct ++ tag).take ((ct ++ tag).length - 16) = ct := by
    rw [hsub, List.take_left]
  have hdrop : (ct ++ tag).drop ((ct ++ tag).length - 16) = tag := by
    rw [hsub, List.drop_left]
  rw [gcmOpen, if_neg hnot]
  simp only [htake, hdrop]

theorem gcm_ct_length (Ek : BlockFn) (nonce pt : Bytes)
    (hE : ∀ b : Bytes, b.length = 16 → (∀ x ∈ b, x < 256) →
      (Ek b).length = 16 ∧ ∀ x ∈ Ek b, x < 256) :
    (xorBytes pt (gctrKeystream Ek (beBytesToNat nonce * 2 ^ 32 + 1)
      ((pt.length + 15) / 16))).length = pt.length := by
  rw [xorBytes_length, gctrKeystream_length _ _ _ hE]
  omega

theorem gcmOpen_gcmSeal (Ek : BlockFn) (nonce pt : Bytes)
    (hE : ∀ b : Bytes, b.length = 16 → (∀ x ∈ b, x < 256) →
      (Ek b).length = 16 ∧ ∀ x ∈ Ek b, x < 256) :
    gcmOpen Ek nonce (gcmSeal Ek nonce pt) = some pt := by
  rw [gcmSeal_eq,
    gcmOpen_append Ek nonce _ _ (natToBeBytes_length 16 _),
    gcm_ct_length Ek nonce pt hE, if_pos rfl]
  refine congrArg some (xorBytes_right_cancel pt _ ?_)
  rw [gctrKeystream_length _ _ _ hE]
  omega

theorem gcm_h_lt (Ek : BlockFn)
    (hE : ∀ b : Bytes, b.length = 16 → (∀ x ∈ b, x < 256) →
      (Ek b).length = 16 ∧ ∀ x ∈ Ek b, x < 256) (b : Bytes)
    (hb1 : b.length = 16) (hb2 : ∀ x ∈ b, x < 256) :
    beBytesToNat (Ek b) < 2 ^ 128 := by
  obtain ⟨hl, hlt⟩ := hE b hb1 hb2
  have := beBytesToNat_lt (Ek b) hlt
  rw [hl] at this
  rw [two_pow_128_eq]
  exact this

theorem gcmOpen_tagFlip (Ek : BlockFn) (nonce pt : Bytes) (i k : Nat)
    (hE : ∀ b : Bytes, b.length = 16 → (∀ x ∈ b, x < 256) →
      (Ek b).length = 16 ∧ ∀ x ∈ Ek b, x < 256)
    (hi1 : pt.length ≤ i) (hi2 : i < pt.length + 16) :
    gcmOpen Ek nonce (flipBit (gcmSeal Ek nonce pt) i k) = none := by
  rw [gcmSeal_eq]
  set ct := xorBytes pt (gctrKeystream Ek (beBytesToNat nonce * 2 ^ 32 + 1)
    ((pt.length + 15) / 16)) with hct
  set s := ghash (beBytesToNat (Ek (List.replicate 16 0))) (gcmBlocks ct) with hs
  set mask := beBytesToNat (Ek (natToBeBytes 16 (beBytesToNat nonce * 2 ^ 32 + 1))) with hmask
  set tag := natToBeBytes 16 (s ^^^ mask) with htag
  have hctlen : ct.length = pt.length := gcm_ct_length Ek nonce pt hE
  have htaglen : tag.length = 16 := natToBeBytes_length 16 _
  have hile : ct.length ≤ i := by omega
  have hisub : i - ct.length < 16 := by omega
  rw [flipBit, List.set_append_right _ _ hile, List.getD_append_right _ _ _ _ hile,
    ← hctlen] at *
  rw [gcmOpen_append Ek nonce ct _ (by simp [htaglen])]
  rw [if_neg ?_]
  intro heq
  have hj : i - ct.length < tag.length := by omega
  have h1 : (tag.set (i - ct.length) (tag.getD (i - ct.length) 0 ^^^ 2 ^ k))[i - ct.length]?
      = some (tag.getD (i - ct.length) 0 ^^^ 2 ^ k) :=
    List.getElem?_set_eq (by simpa using hj)
  have h2 : tag[i - ct.length]? = some (tag.getD (i - ct.length) 0) := by
    rw [List.getD_eq_getElem _ _ hj, List.getElem?_eq_getElem hj]
  rw [heq] at h1
  rw [h1] at h2
  have h3 : tag.getD (i - ct.length) 0 ^^^ 2 ^ k = tag.getD (i - ct.length) 0 :=
    Option.some.inj h2
  have h4 := congrArg (fun t => tag.getD (i - ct.length) 0 ^^^ t) h3.symm
  simp only [Nat.xor_cancel_left, Nat.xor_self] at h4
  have : 0 < 2 ^ k := Nat.pos_pow_of_pos k (by omega)
  omega

theorem gcmOpen_ctFlip (Ek : BlockFn) (nonce pt : Bytes) (i k : Nat)
    (hE : ∀ b : Bytes, b.length = 16 → (∀ x ∈ b, x < 256) →
      (Ek b).length = 16 ∧ ∀ x ∈ Ek b, x < 256)
    (hi : i < pt.length)
    (hd : ghash (beBytesToNat (Ek (List.replicate 16 0)))
        (gcmBlocks (flipBit (xorBytes pt (gctrKeystream Ek (beBytesToNat nonce * 2 ^ 32 + 1)
          ((pt.length + 15) / 16))) i k))
      ≠ ghash (beBytesToNat (Ek (List.replicate 16 0)))
        (gcmBlocks (xorBytes pt (gctrKeystream Ek (beBytesToNat nonce * 2 ^ 32 + 1)
          ((pt.length + 15) / 16))))) :
    gcmOpen Ek nonce (flipBit (gcmSeal Ek nonce pt) i k) = none := by
  rw [gcmSeal_eq]
  set ct := xorBytes pt (gctrKeystream Ek (beBytesToNat nonce * 2 ^ 32 + 1)
    ((pt.length + 15) / 16)) with hct
  set h := beBytesToNat (Ek (List.replicate 16 0)) with hh
  set mask := beBytesToNat (Ek (natToBeBytes 16 (beBytesToNat nonce * 2 ^ 32 + 1))) with hmask
  set tag := natToBeBytes 16 (ghash h (gcmBlocks ct) ^^^ mask) with htag
  have hctlen : ct.length = pt.length := gcm_ct_length Ek nonce pt hE
  have hilt : i < ct.length := by omega
  rw [flipBit, List.set_append_left _ _ hilt, List.getD_append _ _ _ _ hilt, ← flipBit]
  rw [gcmOpen_append Ek nonce _ _ (natToBeBytes_length 16 _)]
  rw [if_neg ?_]
  intro heq
  have hhlt : h < 2 ^ 128 := gcm_h_lt Ek hE _ (by simp) (by simp)
  have hmasklt : mask < 2 ^ 128 :=
    gcm_h_lt Ek hE _ (natToBeBytes_length 16 _) (natToBeBytes_lt 16 _)
  have hb1 : ghash h (gcmBlocks ct) ^^^ mask < 256 ^ 16 := by
    rw [← two_pow_128_eq]
    exact Nat.xor_lt_two_pow (ghash_lt _ _ hhlt) hmasklt
  have hb2 : ghash h (gcmBlocks (flipBit ct i k)) ^^^ mask < 256 ^ 16 := by
    rw [← two_pow_128_eq]
    exact Nat.xor_lt_two_pow (ghash_lt _ _ hhlt) hmasklt
  have heq2 := natToBeBytes_inj hb1 hb2 heq
  have := congrArg (fun t => t ^^^ mask) heq2
  simp only [Nat.xor_cancel_right] at this
  exact hd this.symm

/-- The concrete block permutation `xorE` is 16-byte- and
byte-range-preserving. -/
theorem xorE_good (key : Bytes) : ∀ b : Bytes, b.length = 16 → (∀ x ∈ b, x < 256) →
    ((xorE key b).length = 16 ∧ ∀ x ∈ xorE key b, x < 256) := by
  intro b hl hb
  constructor
  · simp [xorE, hl]
  · intro x hx
    simp only [xorE, List.mem_map] at hx
    obtain ⟨y, hy, rfl⟩ := hx
    have h1 : y < 2 ^ 8 := by have := hb y hy; omega
    have h2 : (0xAB : Nat) < 2 ^ 8 := by norm_num
    have := Nat.xor_lt_two_pow h1 h2
    omega

/-- C6: GCM-mode `aesEncrypt` requires a 12-byte nonce (erring on any other
length), applies no padding (output length is plaintext length plus the
16-byte tag), emits `ciphertext || tag` with the ciphertext the CTR
keystream XOR, decrypting with the same key and nonce recovers the
plaintext, flipping any bit of the tag fails authentication, and flipping
a ciphertext bit fails authentication whenever it changes the GHASH value
(which a non-degenerate hash subkey guarantees). -/
theorem c6_gcm (E : Bytes → BlockFn) (opt : EncOpt) (pt : Bytes)
    (hE : ∀ b : Bytes, b.length = 16 → (∀ x ∈ b, x < 256) →
      ((E opt.Key b).length = 16 ∧ ∀ x ∈ E opt.Key b, x < 256))
    (hkey : opt.Key.length = 16 ∨ opt.Key.length = 24 ∨ opt.Key.length = 32)
    (hmode : toUpperAscii opt.Mode = "GCM") (hnonce : opt.Iv.length = 12) :
    (∀ nonce2 : Bytes, nonce2.length ≠ 12 →
        aesEncrypt E pt { opt with Iv := nonce2 } = .error "GCM Nonce length must be 12 bytes")
    ∧ aesEncrypt E pt opt = .ok (b64encode (gcmSeal (E opt.Key) opt.Iv pt))
    ∧ (gcmSeal (E opt.Key) opt.Iv pt).length = pt.length + 16
    ∧ (gcmSeal (E opt.Key) opt.Iv pt).take pt.length
        = xorBytes pt (gctrKeystream (E opt.Key) (beBytesToNat opt.Iv * 2 ^ 32 + 1)
            ((pt.length + 15) / 16))
    ∧ gcmOpen (E opt.Key) opt.Iv (gcmSeal (E opt.Key) opt.Iv pt) = some pt
    ∧ (∀ i k : Nat, pt.length ≤ i → i < pt.length + 16 →
        gcmOpen (E opt.Key) opt.Iv (flipBit (gcmSeal (E opt.Key) opt.Iv pt) i k) = none)
    ∧ (∀ i k : Nat, i < pt.length →
        ghash (beBytesToNat (E opt.Key (List.replicate 16 0)))
            (gcmBlocks (flipBit (xorBytes pt (gctrKeystream (E opt.Key)
              (beBytesToNat opt.Iv * 2 ^ 32 + 1) ((pt.length + 15) / 16))) i k))
          ≠ ghash (beBytesToNat (E opt.Key (List.replicate 16 0)))
            (gcmBlocks (xorBytes pt (gctrKeystream (E opt.Key)
              (beBytesToNat opt.Iv * 2 ^ 32 + 1) ((pt.length + 15) / 16)))) →
        gcmOpen (E opt.Key) opt.Iv (flipBit (gcmSeal (E opt.Key) opt.Iv pt) i k) = none) := by
  have hctlen := gcm_ct_length (E opt.Key) opt.Iv pt hE
  refine ⟨fun nonce2 h2 => aesEncrypt_gcm_badNonce E pt { opt with Iv := nonce2 } hkey hmode h2,
    aesEncrypt_gcm E pt opt hkey hmode hnonce, ?_, ?_,
    gcmOpen_gcmSeal (E opt.Key) opt.Iv pt hE,
    fun i k hi1 hi2 => gcmOpen_tagFlip (E opt.Key) opt.Iv pt i k hE hi1 hi2,
    fun i k hi hd => gcmOpen_ctFlip (E opt.Key) opt.Iv pt i k hE hi hd⟩
  · rw [gcmSeal_eq, List.length_append, hctlen, natToBeBytes_length]
  · rw [gcmSeal_eq]
    exact List.take_left' hctlen

set_option maxRecDepth 100000 in
/-- C6 witness: at the concrete block permutation `xorE`, valid GCM spec
and plaintext "hi", flipping the first ciphertext bit changes the GHASH
value and decryption rejects the tampered message. -/
theorem c6_gcm_witness :
    gcmOpen (xorE gcmSpec.Key) gcmSpec.Iv
      (flipBit (gcmSeal (xorE gcmSpec.Key) gcmSpec.Iv (strBytes "hi")) 0 0) = none :=
  (c6_gcm xorE gcmSpec (strBytes "hi") (fun b hl hb => xorE_good gcmSpec.Key b hl hb)
    (by decide) (by decide) (by decide)).2.2.2.2.2.2 0 0 (by decide) (by decide)

/-! ## Marshaling lemmas -/

theorem mem_keys_optStr {s : String} (k v : String) :
    s ∈ (optStrField k v).map Prod.fst → s = k := by
  unfold optStrField
  split
  · intro h; simp at h
  · intro h; simpa using h

theorem mem_keys_optInt {s : String} (k : String) (v : Option Int) :
    s ∈ (optIntField k v).map Prod.fst → s = k := by
  cases v <;> simp [optIntField]

theorem keysOf_no_routing (o : Options) (h1 : o.DeviceKey = "") (h2 : o.DeviceKeys = []) :
    ∀ s ∈ keysOf o, s ≠ "device_key" ∧ s ≠ "device_keys" := by
  intro s hs
  have hdk : optStrField "device_key" o.DeviceKey = [] := by rw [h1]; rfl
  have hdks : (if o.DeviceKeys = [] then ([] : List (String × String))
      else [("device_keys", jsonArr o.DeviceKeys)]) = [] := by rw [if_pos h2]
  simp only [keysOf, marshalFields, hdk, hdks, List.nil_append, List.map_append,
    List.mem_append] at hs
  simp only [or_assoc] at hs
  rcases hs with h | h | h | h | h | h | h | h | h | h | h | h | h | h | h | h | h | h
  all_goals first
    | (have hk := mem_keys_optStr _ _ h; subst hk; exact ⟨by decide, by decide⟩)
    | (have hk := mem_keys_optInt _ _ h; subst hk; exact ⟨by decide, by decide⟩)

theorem encOptsOf_contentEq {o o2 : Options} (h : contentEq o o2) :
    encOptsOf o = encOptsOf o2 := by
  obtain ⟨h1, h2, h3, h4, h5, h6, h7, h8, h9, h10, h11, h12, h13, h14, h15, h16, h17, h18⟩ := h
  cases o
  cases o2
  simp_all [encOptsOf]

theorem charUtf8_lt (c : Char) : ∀ x ∈ charUtf8 c, x < 256 := by
  have he : c.toNat = c.val.toNat := rfl
  have hv : c.toNat < 0x110000 := by
    have h := c.valid
    rcases h with h | ⟨_, h⟩ <;> omega
  intro x hx
  simp only [charUtf8] at hx
  split at hx
  · simp only [List.mem_cons, List.mem_singleton, List.not_mem_nil, or_false] at hx
    omega
  · split at hx
    · simp only [List.mem_cons, List.mem_singleton, List.not_mem_nil, or_false] at hx
      omega
    · split at hx
      · simp only [List.mem_cons, List.mem_singleton, List.not_mem_nil, or_false] at hx
        omega
      · simp only [List.mem_cons, List.mem_singleton, List.not_mem_nil, or_false] at hx
        omega

theorem strBytes_lt (s : String) : ∀ x ∈ strBytes s, x < 256 := by
  intro x hx
  rw [strBytes] at hx
  obtain ⟨c, hc, hxc⟩ := List.mem_flatten.mp hx
  obtain ⟨ch, _, rfl⟩ := List.mem_map.mp hc
  exact charUtf8_lt ch x hxc

/-- C3: with encryption enabled, the plaintext handed to the cipher — the
JSON serialization of the cleared request copy — carries neither a
`device_key` nor a `device_keys` field nor the encryption spec; it is
identical for any two requests that differ only in their routing
identifiers and spec; and CBC-decrypting the emitted ciphertext recovers
exactly that routing-free JSON. -/
theorem c3_plaintext_isolation (E : Bytes → BlockFn) (D : BlockFn) (o o2 : Options)
    (enc : EncOpt) (ct : String)
    (henc : o.Enc = some enc)
    (hE : ∀ b : Bytes, b.length = 16 → (∀ x ∈ b, x < 256) →
      ((E enc.Key b).length = 16 ∧ ∀ x ∈ E enc.Key b, x < 256))
    (hinv : ∀ b : Bytes, b.length = 16 → (∀ x ∈ b, x < 256) → D (E enc.Key b) = b)
    (hkey : enc.Key.length = 16 ∨ enc.Key.length = 24 ∨ enc.Key.length = 32)
    (hmode : toUpperAscii enc.Mode = "CBC")
    (hiv : enc.Iv.length = 16) (hivb : ∀ x ∈ enc.Iv, x < 256)
    (hok : aesEncrypt E (strBytes (marshalOptions (encOptsOf o))) enc = .ok ct) :
    (∀ s ∈ keysOf (encOptsOf o), s ≠ "device_key" ∧ s ≠ "device_keys")
    ∧ (encOptsOf o).Enc = none
    ∧ (contentEq o o2 →
        strBytes (marshalOptions (encOptsOf o)) = strBytes (marshalOptions (encOptsOf o2)))
    ∧ pKCS7Unpad ((cbcDecBlocks D enc.Iv (chunksExact (b64decode ct))).flatten)
        = strBytes (marshalOptions (encOptsOf o)) := by
  refine ⟨keysOf_no_routing (encOptsOf o) rfl rfl, rfl,
    fun h => by rw [encOptsOf_contentEq h], ?_⟩
  have hct := aesEncrypt_cbc E (strBytes (marshalOptions (encOptsOf o))) enc hkey hmode hiv
  rw [hok] at hct
  have hcteq := Except.ok.inj hct
  rw [hcteq]
  exact cbc_b64_roundtrip (E enc.Key) D enc.Iv _ hE hinv hiv hivb
    (strBytes_lt (marshalOptions (encOptsOf o)))

/-- C3 witness: the concrete requests `oC3a` and `oC3b` differ only in
routing identifiers and spec, and their cipher plaintexts coincide. -/
theorem c3_plaintext_isolation_witness :
    strBytes (marshalOptions (encOptsOf oC3a)) = strBytes (marshalOptions (encOptsOf oC3b)) :=
  (c3_plaintext_isolation idE (idE []) oC3a oC3b cbcSpec
    (b64encode ((cbcEncBlocks (idE cbcSpec.Key) cbcSpec.Iv
      (chunksExact (pKCS7Padding (strBytes (marshalOptions (encOptsOf oC3a))) 16))).flatten))
    rfl (fun _ hl hb => ⟨hl, hb⟩) (fun _ _ _ => rfl)
    (by decide) (by decide) (by decide) (by decide) rfl).2.2.1
    ⟨rfl, rfl, rfl, rfl, rfl, rfl, rfl, rfl, rfl, rfl, rfl, rfl, rfl, rfl, rfl, rfl, rfl, rfl⟩

end Bark
